import Mathlib

/-!
Verification of the query-interpretation and fuzzy-matching core of the
stremio-ai-companion repository: a shallow embedding of
`app/utils/parsing.py` (title/year extraction, specificity and intent
classification) and of the candidate filtering/ranking logic of
`TMDBService.search_movie` / `TMDBService.search_tv` in
`app/services/tmdb.py`, together with theorems settling the frozen claims
about them.

Strings are modelled as Lean `String` / `List Char`; Python regex scans
are translated into executable character-list scanners with the same
match semantics (ASCII whitespace and digit classes); the similarity
ratio of `difflib.SequenceMatcher` (standard library, not part of the
repository) is modelled from its documented contract: total length `M` of
greedily found longest matching blocks, ratio `2*M/T` as an exact
rational.  Fallible dictionary subscripts are modelled with `Except`.
-/

/-! ## Character classes (Python `\s`, `\d`, `\w`, `str.strip`, `str.lower`) -/

/-- Python `\s` / `str.strip` whitespace, ASCII part: space, tab, newline,
carriage return, vertical tab, form feed. -/
def isSpace (c : Char) : Bool :=
  c == ' ' || c == '\t' || c == '\n' || c == '\r' || c == '\x0b' || c == '\x0c'

/-- Python `\w` word character (ASCII part): alphanumeric or underscore. -/
def isWordChar (c : Char) : Bool :=
  c.isAlphanum || c == '_'

/-- Python `\d` (ASCII part): the characters `0`..`9`, code points 48-57. -/
def isDigitC (c : Char) : Bool :=
  decide (48 ≤ c.toNat) && decide (c.toNat ≤ 57)

/-- Python `str.lower` on a character list. -/
def lowerL (l : List Char) : List Char :=
  l.map Char.toLower

/-- Python `str.strip()`: remove leading and trailing whitespace. -/
def stripL (l : List Char) : List Char :=
  ((l.dropWhile isSpace).reverse.dropWhile isSpace).reverse

/-- `str.strip()` on a `String`. -/
def strip (s : String) : String :=
  ⟨stripL s.data⟩

/-- Numeric value of a digit character. -/
def digitVal (c : Char) : Nat :=
  c.toNat - ('0').toNat

/-- Value of a digit string, as `int()` computes it. -/
def digitsVal (l : List Char) : Nat :=
  l.foldl (fun acc c => 10 * acc + digitVal c) 0

/-! ## `app/utils/parsing.py` : `parse_movie_with_year`, `parse_title_with_year`

`parse_movie_with_year` searches `\s*\((\d{4})\)\s*$`: the string must end
in an optional whitespace run, `(`, exactly four digits, `)`, optional
whitespace.  We match the reversed character list after discarding the
trailing whitespace.  On success the captured year and the rest of the
string (reversed) are returned; `re.sub` removes the whole matched suffix
and the result is stripped, which is what stripping the remaining text
yields. -/

/-- The suffix match of `\((\d{4})\)\s*$` on the reversed string with
trailing whitespace already removed: `)' , four digits (reversed), `(`,
then the reversed remaining text. -/
def parenYearRev (l : List Char) : Option (List Char × Nat) :=
  match l with
  | cl :: d4 :: d3 :: d2 :: d1 :: op :: rest =>
    if cl == ')' && op == '(' && isDigitC d1 && isDigitC d2 && isDigitC d3 && isDigitC d4 then
      some (rest, 1000 * digitVal d1 + 100 * digitVal d2 + 10 * digitVal d3 + digitVal d4)
    else none
  | _ => none

/-- `parse_movie_with_year` (`app/utils/parsing.py`, lines 11-35): extract
a trailing parenthesized 4-digit year; otherwise return the stripped
input with no year. -/
def parse_movie_with_year (s : String) : String × Option Nat :=
  match parenYearRev (s.data.reverse.dropWhile isSpace) with
  | some (rest, y) => (⟨stripL rest.reverse⟩, some y)
  | none => (strip s, none)

/-- The suffix match of `\s+((19|20)\d{2})\s*$` on the reversed string
with trailing whitespace already removed: four digits (reversed) whose
first two are `19` or `20`, preceded by at least one whitespace
character.  Returns the reversed remaining text including that
whitespace (`re.sub` removes it, and stripping does the same). -/
def trailYearRev (l : List Char) : Option (List Char × Nat) :=
  match l with
  | d4 :: d3 :: d2 :: d1 :: w :: rest =>
    if ((d1 == '1' && d2 == '9') || (d1 == '2' && d2 == '0')) && isDigitC d3 && isDigitC d4
        && isSpace w then
      some (w :: rest, 1000 * digitVal d1 + 100 * digitVal d2 + 10 * digitVal d3 + digitVal d4)
    else none
  | _ => none

/-- `parse_title_with_year` (`app/utils/parsing.py`, lines 38-59): first
try `parse_movie_with_year`; the Python guard `if year:` is truthiness,
so both a missing year and the year `0` fall through to the relaxed
trailing-year pattern on the original string. -/
def parse_title_with_year (s : String) : String × Option Nat :=
  let p := parse_movie_with_year s
  if p.2 ≠ none ∧ p.2 ≠ some 0 then p
  else
    match trailYearRev (s.data.reverse.dropWhile isSpace) with
    | some (rest, y) => (⟨stripL rest.reverse⟩, some y)
    | none => (strip s, none)

/-! ## Regex scanners used by `is_specific_title_query` / `detect_user_intent` -/

/-- Match a literal token at the head of the list, returning the
remainder. -/
def litHere : List Char → List Char → Option (List Char)
  | [], l => some l
  | _ :: _, [] => none
  | w :: ws, c :: cs => if w == c then litHere ws cs else none

/-- A word boundary `\b` holds after a word character iff the next
character is absent or not a word character. -/
def rightBd : List Char → Bool
  | [] => true
  | c :: _ => !(isWordChar c)

/-- One alternative of a regex pattern: a sequence of literal tokens and
`\s+` gaps. -/
inductive Tok where
  | lit : List Char → Tok
  | gap : Tok
deriving DecidableEq

/-- Match a token sequence at the head of the list; `Tok.gap` is `\s+`
(here followed by literals starting with non-whitespace, so consuming the
whole whitespace run is faithful). -/
def matchToks : List Tok → List Char → Option (List Char)
  | [], l => some l
  | Tok.lit w :: ts, l =>
    match litHere w l with
    | some rest => matchToks ts rest
    | none => none
  | Tok.gap :: ts, l =>
    match l with
    | c :: rest => if isSpace c then matchToks ts (rest.dropWhile isSpace) else none
    | [] => none

/-- A pattern alternative matches at this position with a trailing `\b`. -/
def patHere (p : List Tok) (l : List Char) : Bool :=
  match matchToks p l with
  | some rest => rightBd rest
  | none => false

/-- Scan for `\b(alt1|alt2|...)\b`: a match may start wherever the
previous character is not a word character (every alternative starts
with a word character). -/
def scanPats (ps : List (List Tok)) : Bool → List Char → Bool
  | _, [] => false
  | prevW, c :: rest =>
    (!prevW && ps.any (fun p => patHere p (c :: rest))) || scanPats ps (isWordChar c) rest

/-- `re.search` of a word-boundary alternation pattern. -/
def hasPat (ps : List (List Tok)) (l : List Char) : Bool :=
  scanPats ps false l

/-- Build the alternatives of a pattern of plain words. -/
def wordAlts (ws : List String) : List (List Tok) :=
  ws.map (fun w => [Tok.lit w.data])

/-- `re.search(r"\bw1\b|...")` for plain words `ws`. -/
def hasAnyWord (ws : List String) (l : List Char) : Bool :=
  hasPat (wordAlts ws) l

/-- Scan for a token with only a LEFT word boundary (the `\b2000s`
alternative of the decade pattern). -/
def scanLeftBd (w : List Char) : Bool → List Char → Bool
  | _, [] => false
  | prevW, c :: rest =>
    (!prevW && (litHere w (c :: rest)).isSome) || scanLeftBd w (isWordChar c) rest

/-- Scan for a bare token with no boundary requirement (the middle
alternatives `1990s`..`1960s` of the decade pattern). -/
def containsTok (w : List Char) : List Char → Bool
  | [] => false
  | c :: rest => (litHere w (c :: rest)).isSome || containsTok w rest

/-- Scan for a token with only a RIGHT word boundary (the `1950s\b`
alternative of the decade pattern). -/
def scanRightBd (w : List Char) : List Char → Bool
  | [] => false
  | c :: rest =>
    (match litHere w (c :: rest) with
     | some r => rightBd r
     | none => false) || scanRightBd w rest

/-- The decade pattern `r"\b2000s|1990s|1980s|1970s|1960s|1950s\b"`:
alternation binds looser than juxtaposition, so only the first
alternative carries the left boundary and only the last carries the
right boundary; the middle four are bare substring searches. -/
def decadeHit (l : List Char) : Bool :=
  scanLeftBd (("2000s").data) false l ||
  containsTok (("1990s").data) l ||
  containsTok (("1980s").data) l ||
  containsTok (("1970s").data) l ||
  containsTok (("1960s").data) l ||
  scanRightBd (("1950s").data) l

/-- `re.search(r"[\"“”‘’]", search)`: straight double quote or curly
quote characters. -/
def isQuoteChar (c : Char) : Bool :=
  c == '"' || c == '“' || c == '”' || c == '‘' || c == '’'

/-- The quote test of `is_specific_title_query`, on the raw string. -/
def hasQuote (l : List Char) : Bool :=
  l.any isQuoteChar

/-- After a `(`: `(19|20)` then two digits then `)`. -/
def parenAfter : List Char → Bool
  | d1 :: d2 :: d3 :: d4 :: cl :: _ =>
    ((d1 == '1' && d2 == '9') || (d1 == '2' && d2 == '0')) && isDigitC d3 && isDigitC d4
      && cl == ')'
  | _ => false

/-- `re.search(r"\((19|20)\d{2}\)", search)`: a parenthesized two-century
year anywhere in the string. -/
def hasParenYear : List Char → Bool
  | [] => false
  | c :: rest => (c == '(' && parenAfter rest) || hasParenYear rest

/-- At this position: `(19|20)\d{2}\b`. -/
def yearHere : List Char → Bool
  | d1 :: d2 :: d3 :: d4 :: rest =>
    ((d1 == '1' && d2 == '9') || (d1 == '2' && d2 == '0')) && isDigitC d3 && isDigitC d4
      && rightBd rest
  | _ => false

/-- Scan for `\b(19|20)\d{2}\b`. -/
def scanYear : Bool → List Char → Bool
  | _, [] => false
  | prevW, c :: rest => (!prevW && yearHere (c :: rest)) || scanYear (isWordChar c) rest

/-- `re.search(r"\b(19|20)\d{2}\b", search_lower)`. -/
def hasBareYear (l : List Char) : Bool :=
  scanYear false l

/-- `len(s.split())`: number of maximal non-whitespace runs. -/
def wcAux : Bool → List Char → Nat
  | _, [] => 0
  | inWord, c :: rest =>
    if isSpace c then wcAux false rest
    else (if inWord then 0 else 1) + wcAux true rest

/-- Word count of `str.split()` with no arguments. -/
def wordCountN (l : List Char) : Nat :=
  wcAux false l

/-- The ordered discovery-intent pattern list of `is_specific_title_query`
(`app/utils/parsing.py`, lines 83-100), each entry translated from its
regex; `any(...)` over the list is the disjunction in source order. -/
def discoveryHit (l : List Char) : Bool :=
  hasAnyWord [("top" : String)] l ||
  hasAnyWord [("best" : String)] l ||
  hasAnyWord [("popular" : String)] l ||
  hasAnyWord [("trending" : String)] l ||
  hasAnyWord [("recommend" : String), ("recommendation" : String),
    ("recommendations" : String), ("recommended" : String), ("recommending" : String)] l ||
  hasAnyWord [("suggest" : String), ("suggestion" : String), ("suggestions" : String),
    ("suggested" : String), ("suggesting" : String)] l ||
  hasAnyWord [("list" : String)] l ||
  hasAnyWord [("ranked" : String)] l ||
  hasAnyWord [("collection" : String)] l ||
  hasAnyWord [("theme" : String)] l ||
  hasAnyWord [("movie" : String), ("movies" : String), ("film" : String), ("films" : String),
    ("show" : String), ("shows" : String), ("series" : String), ("tv" : String)] l ||
  hasAnyWord [("similar to" : String), ("like" : String)] l ||
  decadeHit l

/-- `is_specific_title_query` (`app/utils/parsing.py`, lines 62-106).
The guard `if not search` only catches the empty string; the quote and
parenthesized-year tests run on the raw string, the rest on the
lowercased stripped string. -/
def is_specific_title_query (s : String) : Bool :=
  if s == "" then false
  else
    let low := stripL (lowerL s.data)
    if hasQuote s.data then true
    else if hasParenYear s.data then true
    else if discoveryHit low then false
    else if hasBareYear low then true
    else decide (wordCountN low ≤ 6)

/-! ## `detect_user_intent` (`app/utils/parsing.py`, lines 109-181) -/

/-- Modelled from the spec: the `ContentType` enumeration of
`app/models/enums.py` is not under `src/`; the spec gives
`Intent ∈ {MOVIE, SERIES, UNKNOWN}` with `None` rendered as UNKNOWN. -/
inductive Intent where
  | movie : Intent
  | series : Intent
  | unknown : Intent
deriving DecidableEq

/-- 1 if the pattern fired, else 0. -/
def cnt (b : Bool) : Nat :=
  if b then 1 else 0

/-- The movie-vocabulary pattern count of `detect_user_intent`: one count
per pattern that matches. -/
def movieCount (l : List Char) : Nat :=
  cnt (hasAnyWord [("movie" : String), ("movies" : String)] l) +
  cnt (hasAnyWord [("film" : String), ("films" : String)] l) +
  cnt (hasAnyWord [("cinema" : String)] l) +
  cnt (hasAnyWord [("flick" : String), ("flicks" : String)] l) +
  cnt (hasAnyWord [("motion picture" : String), ("motion pictures" : String)] l) +
  cnt (hasAnyWord [("feature film" : String), ("feature films" : String)] l) +
  cnt (hasAnyWord [("blockbuster" : String), ("blockbusters" : String)] l)

/-- `\btv\s+shows?\b` and friends: alternatives with a `\s+` gap. -/
def gapPat (a b : String) : List (List Tok) :=
  [[Tok.lit a.data, Tok.gap, Tok.lit b.data]]

/-- The suppression test for the bare `shows?` series pattern:
`\b(?:movie|film|cinema)\s+shows?\b`. -/
def movieShowsPat : List (List Tok) :=
  [[Tok.lit ("movie" : String).data, Tok.gap, Tok.lit ("show" : String).data],
   [Tok.lit ("movie" : String).data, Tok.gap, Tok.lit ("shows" : String).data],
   [Tok.lit ("film" : String).data, Tok.gap, Tok.lit ("show" : String).data],
   [Tok.lit ("film" : String).data, Tok.gap, Tok.lit ("shows" : String).data],
   [Tok.lit ("cinema" : String).data, Tok.gap, Tok.lit ("show" : String).data],
   [Tok.lit ("cinema" : String).data, Tok.gap, Tok.lit ("shows" : String).data]]

/-- The series-vocabulary pattern count of `detect_user_intent`, with the
special handling of the bare `\bshows?\b` pattern. -/
def seriesCount (l : List Char) : Nat :=
  cnt (hasPat (gapPat ("tv" : String) ("show" : String) ++
    gapPat ("tv" : String) ("shows" : String)) l) +
  cnt (hasPat (gapPat ("television" : String) ("show" : String) ++
    gapPat ("television" : String) ("shows" : String)) l) +
  cnt (hasAnyWord [("television" : String)] l) +
  cnt (hasAnyWord [("series" : String)] l) +
  cnt (hasAnyWord [("show" : String), ("shows" : String)] l &&
    !(hasPat movieShowsPat l) &&
    !(hasPat (gapPat ("show" : String) ("me" : String)) l)) +
  cnt (hasPat (gapPat ("tv" : String) ("series" : String)) l) +
  cnt (hasPat (gapPat ("television" : String) ("series" : String)) l) +
  cnt (hasAnyWord [("episode" : String), ("episodes" : String)] l) +
  cnt (hasAnyWord [("season" : String), ("seasons" : String)] l) +
  cnt (hasAnyWord [("sitcom" : String), ("sitcoms" : String)] l) +
  cnt (hasPat (gapPat ("drama" : String) ("series" : String) ++
    gapPat ("dramas" : String) ("series" : String)) l) +
  cnt (hasAnyWord [("miniseries" : String)] l) +
  cnt (hasPat (gapPat ("documentary" : String) ("series" : String)) l)

/-- `detect_user_intent` (`app/utils/parsing.py`, lines 109-181). -/
def detect_user_intent (s : String) : Intent :=
  if s == "" then Intent.unknown
  else
    let low := lowerL s.data
    let m := movieCount low
    let sv := seriesCount low
    if hasAnyWord [("and" : String), ("or" : String)] low && decide (0 < m) && decide (0 < sv)
    then Intent.unknown
    else if 0 < m ∧ sv = 0 then Intent.movie
    else if 0 < sv ∧ m = 0 then Intent.series
    else Intent.unknown

/-! ## Similarity ratio

Modelled from the spec: `difflib.SequenceMatcher(None, a, b).ratio()` is
Python standard library, not part of this repository.  The spec defines
it as `2*M/T` where `M` is the total length of matching contiguous
blocks found greedily (longest block first, recursing left and right of
it) and `T` the sum of the string lengths; the empty-vs-empty case is
`1.0`.  We compute `M` with the documented greedy choice: the longest
common run, earliest start in `a` then in `b`. -/

/-- Length of the longest common run starting at the heads of both
lists. -/
def lcp : List Char → List Char → Nat
  | a :: as, b :: bs => if a == b then lcp as bs + 1 else 0
  | _, _ => 0

/-- Inner scan of the greedy longest-block search: try every start in
`b` for a fixed start `i` in `a`, keeping the first strictly longer
run. -/
def bestScanJ (a b : List Char) (i : Nat) : List Nat → Nat × Nat × Nat → Nat × Nat × Nat
  | [], best => best
  | j :: js, best =>
    bestScanJ a b i js
      (if best.2.2 < lcp (a.drop i) (b.drop j) then (i, j, lcp (a.drop i) (b.drop j)) else best)

/-- Outer scan of the greedy longest-block search over starts in `a`. -/
def bestScanI (a b : List Char) : List Nat → Nat × Nat × Nat → Nat × Nat × Nat
  | [], best => best
  | i :: is, best => bestScanI a b is (bestScanJ a b i (List.range b.length) best)

/-- The longest matching block `(i, j, k)`: `a.drop i` and `b.drop j`
share a common run of length `k`, and `k` is maximal (earliest `i`, then
earliest `j`, as `difflib.find_longest_match` picks with no junk). -/
def bestBlock (a b : List Char) : Nat × Nat × Nat :=
  bestScanI a b (List.range a.length) (0, 0, 0)

/-- Total matched length: the longest block plus, recursively, the
matchings of the parts left and right of it, with enough fuel to
complete. -/
def mtotalF : Nat → List Char → List Char → Nat
  | 0, _, _ => 0
  | fuel + 1, a, b =>
    let t := bestBlock a b
    if t.2.2 = 0 then 0
    else
      mtotalF fuel (a.take t.1) (b.take t.2.1) + t.2.2 +
        mtotalF fuel (a.drop (t.1 + t.2.2)) (b.drop (t.2.1 + t.2.2))

/-- Total length `M` of the greedy matching blocks. -/
def mtotal (a b : List Char) : Nat :=
  mtotalF (a.length + b.length) a b

/-- `SequenceMatcher.ratio()`: `2*M/T`, and `1.0` when both strings are
empty. -/
def ratioQ (a b : List Char) : ℚ :=
  if a.length + b.length = 0 then 1
  else mkRat (2 * mtotal a b) (a.length + b.length)

/-! ## `TMDBService.search_movie` / `search_tv` candidate matching
(`app/services/tmdb.py`, lines 190-228 and 266-304)

A TMDB result is a JSON object; the fields the matcher touches are the
display name (`"title"` for movies, `"name"` for TV, read with
`res.get(..., "")`), the identifier `"id"` (read with a bare subscript
`m["id"]`, which raises `KeyError` when absent — modelled with
`Except`), and the transient `"_score"` annotation the matcher itself
writes.  `Option` models an absent key. -/

structure Cand where
  title : Option String
  name : Option String
  id : Option Int
  score : Option ℚ
deriving DecidableEq

/-- `res["_score"] = q`. -/
def annotate (c : Cand) (q : ℚ) : Cand :=
  { c with score := some q }

/-- The sort key `x.get("_score", 0)`. -/
def sc (c : Cand) : ℚ :=
  c.score.getD 0

/-- `FUZZY_MATCH_THRESHOLD = 0.85`. -/
def fuzzyThreshold : ℚ := mkRat 17 20

/-- `RELAXED_MATCH_THRESHOLD = 0.65`. -/
def relaxedThreshold : ℚ := mkRat 13 20

/-- `TOP_RESULT_THRESHOLD = 0.40`. -/
def topThreshold : ℚ := mkRat 2 5

/-- One iteration of the scoring loop at index `idx`: exact
case-insensitive name equality scores `1.0` and is always kept;
otherwise the similarity ratio is stored and the candidate is kept by
the threshold chain (`>= 0.85`, `elif >= 0.65`, `elif` first result
`>= 0.40`). -/
def keepStep (nameF : Cand → Option String) (title : String) (idx : Nat) (c : Cand) :
    Option Cand :=
  let n := (nameF c).getD ""
  if lowerL n.data = lowerL title.data then some (annotate c 1)
  else
    let s := ratioQ (lowerL title.data) (lowerL n.data)
    if fuzzyThreshold ≤ s then some (annotate c s)
    else if relaxedThreshold ≤ s then some (annotate c s)
    else if idx = 0 ∧ topThreshold ≤ s then some (annotate c s)
    else none

/-- The `matches` list: the scoring loop over `enumerate(tmdb_results)`,
keeping provider order. -/
def scoreFilter (nameF : Cand → Option String) (title : String) :
    List Cand → Nat → List Cand
  | [], _ => []
  | c :: cs, idx =>
    match keepStep nameF title idx c with
    | some c' => c' :: scoreFilter nameF title cs (idx + 1)
    | none => scoreFilter nameF title cs (idx + 1)

/-- The deduplication loop: `m["id"]` raises when the key is absent
(`Except.error ()`); otherwise the first occurrence of each identifier
is kept, in order. -/
def dedupGo (seen : List Int) : List Cand → Except Unit (List Cand)
  | [] => .ok []
  | c :: cs =>
    match c.id with
    | none => .error ()
    | some i =>
      if i ∈ seen then dedupGo seen cs
      else (dedupGo (i :: seen) cs).map (fun u => c :: u)

/-- `unique_matches`: deduplicate by identifier, first occurrence wins. -/
def dedupCands (l : List Cand) : Except Unit (List Cand) :=
  dedupGo [] l

/-- Stable descending insertion by score: an element moves below only
strictly greater scores, so provider order is preserved on ties —
exactly the guarantee of Python's stable `sort(key=..., reverse=True)`. -/
def insertD (x : Cand) : List Cand → List Cand
  | [] => [x]
  | y :: ys => if sc x < sc y then y :: insertD x ys else x :: y :: ys

/-- `unique_matches.sort(key=lambda x: x.get("_score", 0), reverse=True)`
as a stable descending sort. -/
def sortD : List Cand → List Cand
  | [] => []
  | x :: xs => insertD x (sortD xs)

/-- The candidate filtering/ranking stage shared verbatim by
`search_movie` and `search_tv`: score and filter, deduplicate by
identifier, sort by score descending, truncate to 5 (an empty survivor
set yields the empty list either way). -/
def rankCore (nameF : Cand → Option String) (title : String) (cs : List Cand) :
    Except Unit (List Cand) :=
  (dedupCands (scoreFilter nameF title cs 0)).map (fun u => (sortD u).take 5)

/-- The display-name accessor of `search_movie`: `res.get("title", "")`. -/
def movieName (c : Cand) : Option String :=
  c.title

/-- The display-name accessor of `search_tv`: `res.get("name", "")`. -/
def tvName (c : Cand) : Option String :=
  c.name

/-- `search_movie` (`app/services/tmdb.py`, lines 156-228), from the
provider's result list on: the HTTP layer above it is out of the core. -/
def search_movie (title : String) (results : List Cand) : Except Unit (List Cand) :=
  rankCore movieName title results

/-- `search_tv` (`app/services/tmdb.py`, lines 230-304), from the
provider's result list on. -/
def search_tv (title : String) (results : List Cand) : Except Unit (List Cand) :=
  rankCore tvName title results

/-- The first element attaining the maximal score, i.e. the head of a
stable descending sort. -/
def firstMax : List Cand → Option Cand
  | [] => none
  | x :: xs =>
    match firstMax xs with
    | none => some x
    | some m => if sc x < sc m then some m else some x

/-! ## Helper lemmas: character classes -/

theorem isSpace_enum (c : Char) (h : isSpace c = true) :
    c = ' ' ∨ c = '\t' ∨ c = '\n' ∨ c = '\r' ∨ c = '\x0b' ∨ c = '\x0c' := by
  simp only [isSpace, Bool.or_eq_true, beq_iff_eq, or_assoc] at h
  exact h

theorem isSpace_toNat_le (c : Char) (h : isSpace c = true) : c.toNat ≤ 32 := by
  rcases isSpace_enum c h with rfl | rfl | rfl | rfl | rfl | rfl <;> decide

theorem isDigitC_toNat (c : Char) (h : isDigitC c = true) :
    48 ≤ c.toNat ∧ c.toNat ≤ 57 := by
  simp only [isDigitC, Bool.and_eq_true, decide_eq_true_eq] at h
  exact h

theorem isSpace_of_isDigitC (c : Char) (h : isDigitC c = true) : isSpace c = false := by
  cases hs : isSpace c with
  | false => rfl
  | true =>
    have h1 := isSpace_toNat_le c hs
    have h2 := (isDigitC_toNat c h).1
    omega

theorem digitVal_le_nine (c : Char) (h : isDigitC c = true) : digitVal c ≤ 9 := by
  have h2 := (isDigitC_toNat c h).2
  have h0 : ('0').toNat = 48 := by decide
  simp only [digitVal, h0]
  omega

theorem beq_rparen_of_isDigitC (c : Char) (h : isDigitC c = true) : (c == ')') = false := by
  cases hb : c == ')' with
  | false => rfl
  | true =>
    have : c = ')' := by simpa [beq_iff_eq] using hb
    subst this
    simp [isDigitC] at h

theorem toLower_fix_of_lt (c : Char) (h : c.toNat < 65) : c.toLower = c := by
  simp only [Char.toLower]
  rw [if_neg (show ¬(Char.toNat c ≥ 65 ∧ Char.toNat c ≤ 90) by omega)]

theorem isSpace_toLower (c : Char) (h : isSpace c = true) : c.toLower = c :=
  toLower_fix_of_lt c (by have := isSpace_toNat_le c h; omega)

theorem isSpace_not_quote (c : Char) (h : isSpace c = true) : isQuoteChar c = false := by
  rcases isSpace_enum c h with rfl | rfl | rfl | rfl | rfl | rfl <;> decide

theorem isSpace_not_lparen (c : Char) (h : isSpace c = true) : (c == '(') = false := by
  rcases isSpace_enum c h with rfl | rfl | rfl | rfl | rfl | rfl <;> decide

/-! ## Helper lemmas: stripping -/

theorem stripL_all_space (w : List Char) (h : ∀ c ∈ w, isSpace c = true) :
    stripL w = [] := by
  have h1 : w.dropWhile isSpace = [] := by
    rw [List.dropWhile_eq_nil_iff]
    exact fun x hx => h x hx
  simp [stripL, h1]

theorem lowerL_space (w : List Char) (h : ∀ c ∈ w, isSpace c = true) :
    lowerL w = w := by
  induction w with
  | nil => rfl
  | cons c cs ih =>
    simp only [lowerL, List.map_cons] at *
    rw [isSpace_toLower c (h c (by simp)), ih (fun x hx => h x (by simp [hx]))]

/-! ## Helper lemmas: the year suffix matchers -/

theorem parenYearRev_cons_none (c : Char) (l : List Char) (hc : (c == ')') = false) :
    parenYearRev (c :: l) = none := by
  unfold parenYearRev
  split
  case h_1 cl d4 d3 d2 d1 op rest heq =>
    have hcl : cl = c := (List.cons.injEq _ _ _ _ ▸ heq).1.symm
    subst hcl
    simp [hc]
  case h_2 => rfl

theorem parenYearRev_bound (l r : List Char) (y : Nat)
    (h : parenYearRev l = some (r, y)) : y ≤ 9999 := by
  unfold parenYearRev at h
  split at h
  · split at h
    · rename_i hc
      simp only [Bool.and_eq_true] at hc
      obtain ⟨⟨⟨⟨⟨_, _⟩, h1⟩, h2⟩, h3⟩, h4⟩ := hc
      have b1 := digitVal_le_nine _ h1
      have b2 := digitVal_le_nine _ h2
      have b3 := digitVal_le_nine _ h3
      have b4 := digitVal_le_nine _ h4
      cases h
      omega
    · exact absurd h (by simp)
  · exact absurd h (by simp)

theorem trailYearRev_range (l r : List Char) (y : Nat)
    (h : trailYearRev l = some (r, y)) : 1900 ≤ y ∧ y ≤ 2099 := by
  unfold trailYearRev at h
  split at h
  · split at h
    · rename_i hc
      simp only [Bool.and_eq_true, Bool.or_eq_true, beq_iff_eq] at hc
      obtain ⟨⟨⟨hcent, h3⟩, h4⟩, _⟩ := hc
      have b3 := digitVal_le_nine _ h3
      have b4 := digitVal_le_nine _ h4
      cases h
      rcases hcent with ⟨rfl, rfl⟩ | ⟨rfl, rfl⟩ <;>
        simp only [show digitVal ('1') = 1 from by decide, show digitVal ('9') = 9 from by decide,
          show digitVal ('2') = 2 from by decide,
          show digitVal ('0') = 0 from by decide] <;>
        omega
    · exact absurd h (by simp)
  · exact absurd h (by simp)

/-! ## Parse-function lemmas and claims -/

theorem parse_movie_year_le (s : String) (t : String) (y : Nat)
    (h : parse_movie_with_year s = (t, some y)) : y ≤ 9999 := by
  unfold parse_movie_with_year at h
  split at h
  · rename_i rest y' heq
    have hy : y' = y := by
      have := (Prod.mk.injEq _ _ _ _ ▸ h)
      simp at this
      exact this.2
    exact hy ▸ parenYearRev_bound _ _ _ heq
  · simp [Prod.ext_iff] at h

theorem reverse_paren_shape (t dl w : List Char) :
    (t ++ '(' :: (dl ++ ')' :: w)).reverse = w.reverse ++ ')' :: (dl.reverse ++ '(' :: t.reverse) := by
  simp [List.reverse_append, List.reverse_cons, List.append_assoc]

/-- Claim C3 (amended): on any input of the shape
`text ++ "(" ++ 4 digits ++ ")" ++ trailing whitespace`,
`parse_movie_with_year` returns the captured 4-digit value — any value,
no century restriction — and the remaining text trimmed;
`parse_title_with_year` does the same whenever the captured value is
nonzero (the Python guard `if year:` sends the year `0000` down the
bare-year fallback instead). -/
theorem paren_year_parse (t d w : List Char) (hd4 : d.length = 4)
    (hdig : ∀ c ∈ d, isDigitC c = true) (hw : ∀ c ∈ w, isSpace c = true) :
    parse_movie_with_year ⟨t ++ '(' :: (d ++ ')' :: w)⟩ = (⟨stripL t⟩, some (digitsVal d)) ∧
    (digitsVal d ≠ 0 →
      parse_title_with_year ⟨t ++ '(' :: (d ++ ')' :: w)⟩ = (⟨stripL t⟩, some (digitsVal d))) := by
  rcases d with _ | ⟨a, _ | ⟨b, _ | ⟨c, _ | ⟨e, _ | ⟨f, tl⟩⟩⟩⟩⟩ <;>
    simp only [List.length_cons, List.length_nil] at hd4 <;> try omega
  have ha : isDigitC a = true := hdig a (by simp)
  have hb : isDigitC b = true := hdig b (by simp)
  have hc : isDigitC c = true := hdig c (by simp)
  have he : isDigitC e = true := hdig e (by simp)
  have hdrop : ((⟨t ++ '(' :: ([a, b, c, e] ++ ')' :: w)⟩ : String)).data.reverse.dropWhile isSpace
      = ')' :: e :: c :: b :: a :: '(' :: t.reverse := by
    show (t ++ '(' :: ([a, b, c, e] ++ ')' :: w)).reverse.dropWhile isSpace = _
    rw [reverse_paren_shape]
    rw [List.dropWhile_append_of_pos (fun x hx => hw x (List.mem_reverse.mp hx))]
    rw [List.dropWhile_cons, if_neg (by decide)]
    simp
  have hpar : parenYearRev (')' :: e :: c :: b :: a :: '(' :: t.reverse)
      = some (t.reverse, 1000 * digitVal a + 100 * digitVal b + 10 * digitVal c + digitVal e) := by
    simp [parenYearRev, ha, hb, hc, he]
  have hval : digitsVal [a, b, c, e]
      = 1000 * digitVal a + 100 * digitVal b + 10 * digitVal c + digitVal e := by
    simp [digitsVal, List.foldl]
    ring
  have hmov : parse_movie_with_year ⟨t ++ '(' :: ([a, b, c, e] ++ ')' :: w)⟩
      = (⟨stripL t⟩, some (digitsVal [a, b, c, e])) := by
    unfold parse_movie_with_year
    rw [hdrop, hpar]
    simp [List.reverse_reverse, hval]
  refine ⟨hmov, fun hnz => ?_⟩
  unfold parse_title_with_year
  rw [hmov]
  rw [if_pos ⟨by simp, by simpa using hnz⟩]

/-- Claim C3 counterexample: the year `0000` is parsed by
`parse_movie_with_year` but falls through the truthiness guard of
`parse_title_with_year`, which therefore does not return the captured
digits. -/
theorem paren_year_zero_cex :
    parse_movie_with_year ("Movie (0000)") = (("Movie" : String), some 0) ∧
    parse_title_with_year ("Movie (0000)") = (("Movie (0000)" : String), none) ∧
    parse_title_with_year ("Movie (0000)") ≠ (("Movie" : String), some 0) := by
  decide

theorem paren_year_parse_witness :
    parse_movie_with_year ("The Matrix (1999)") = (("The Matrix" : String), some 1999) ∧
    parse_title_with_year ("The Matrix (1999)") = (("The Matrix" : String), some 1999) := by
  have h := paren_year_parse (("The Matrix " : String).data) (("1999" : String).data) []
    (by decide) (by decide) (by decide)
  exact ⟨h.1, h.2 (by decide)⟩

theorem parse_title_eq (s : String) :
    parse_title_with_year s =
      if (parse_movie_with_year s).2 ≠ none ∧ (parse_movie_with_year s).2 ≠ some 0
      then parse_movie_with_year s
      else
        match trailYearRev (s.data.reverse.dropWhile isSpace) with
        | some (rest, y) => (⟨stripL rest.reverse⟩, some y)
        | none => (strip s, none) := rfl

/-- Claim C4 (amended): a year returned by `parse_movie_with_year` is any
4-digit value `0..9999` (no century restriction on the parenthesized
form); a year returned by `parse_title_with_year` is in `1..9999` —
never `0`, and in `1900..2099` when it comes from the bare trailing-year
pattern — not always in `1900..2099` as claimed. -/
theorem year_range : ∀ (s t : String) (y : Nat),
    (parse_movie_with_year s = (t, some y) → y ≤ 9999) ∧
    (parse_title_with_year s = (t, some y) → 1 ≤ y ∧ y ≤ 9999) := by
  intro s t y
  refine ⟨parse_movie_year_le s t y, fun h => ?_⟩
  rw [parse_title_eq] at h
  split at h
  · rename_i hcond
    have hb := parse_movie_year_le s t y h
    have hnz : y ≠ 0 := by
      intro h0
      subst h0
      exact hcond.2 (by rw [h])
    omega
  · split at h
    · rename_i rest y' heq
      have hy : y' = y := by
        simp [Prod.ext_iff] at h
        exact h.2
      have := trailYearRev_range _ _ _ heq
      omega
    · simp [Prod.ext_iff] at h

/-- Claim C4 counterexample: a parenthesized year outside `1900..2099`
is returned as-is. -/
theorem year_range_cex :
    parse_movie_with_year ("X (2500)") = (("X" : String), some 2500) ∧
    ¬(1900 ≤ 2500 ∧ 2500 ≤ 2099) := by
  decide

theorem year_range_witness :
    parse_movie_with_year ("A (1999)") = (("A" : String), some 1999) ∧ 1999 ≤ 9999 ∧
    parse_title_with_year ("A (1999)") = (("A" : String), some 1999) ∧ 1 ≤ 1999 :=
  ⟨by decide, (year_range ("A (1999)") ("A") 1999).1 (by decide), by decide,
    ((year_range ("A (1999)") ("A") 1999).2 (by decide)).1⟩

/-! ## `is_specific_title_query` claims -/

theorem hasParenYear_all_space (l : List Char) (h : ∀ c ∈ l, isSpace c = true) :
    hasParenYear l = false := by
  induction l with
  | nil => rfl
  | cons c rest ih =>
    show (((c == '(') && parenAfter rest) || hasParenYear rest) = false
    rw [isSpace_not_lparen c (h c (by simp))]
    rw [ih (fun x hx => h x (by simp [hx]))]
    rfl

theorem hasQuote_all_space (l : List Char) (h : ∀ c ∈ l, isSpace c = true) :
    hasQuote l = false := by
  simp only [hasQuote, List.any_eq_false]
  intro c hc
  simp [isSpace_not_quote c (h c hc)]

/-- Claim C5 (amended): the empty input is not specific (false), but a
whitespace-only input is NOT caught by the Python guard `if not search:`
— it falls through every rule to the word-count rule (`0 <= 6`) and
returns true, not false. -/
theorem blank_query :
    is_specific_title_query ("") = false ∧
    ∀ s : String, s ≠ "" → (∀ c ∈ s.data, isSpace c = true) →
      is_specific_title_query s = true := by
  refine ⟨by decide, fun s hs hsp => ?_⟩
  unfold is_specific_title_query
  rw [if_neg (by simp [hs])]
  have hlow : stripL (lowerL s.data) = [] := by
    rw [lowerL_space _ hsp]
    exact stripL_all_space _ hsp
  rw [if_neg (by simp [hasQuote_all_space _ hsp])]
  rw [if_neg (by simp [hasParenYear_all_space _ hsp])]
  rw [hlow]
  decide

/-- Claim C5 counterexample: on the whitespace-only input `" "` the
function returns true, while the claim demands false. -/
theorem blank_query_cex : is_specific_title_query (" ") = true := by decide

theorem blank_query_witness :
    ((" " : String) ≠ "") ∧ is_specific_title_query (" ") = true :=
  ⟨by decide, blank_query.2 (" ") (by decide) (by decide)⟩

/-- Claim C6 (code bug evaluation): in the decade pattern
`\b2000s|1990s|1980s|1970s|1960s|1950s\b` the alternation outranks the
boundary assertions, so `1990s` matches with NO word boundaries: on
`"x1990sy"`, whose only decade token is embedded in a longer
alphanumeric token, the discovery rule fires and the function returns
false — under the claimed word-boundary semantics no discovery pattern
would match and the word-count rule would return true. -/
theorem decade_embedded_eval :
    is_specific_title_query ("x1990sy") = false ∧
    discoveryHit (("x1990sy" : String).data) = true ∧
    containsTok (("1990s" : String).data) (("x1990sy" : String).data) = true := by
  decide

/-! ## Claim C10: bare trailing year -/

/-- Claim C10 (confirmed): a query that is only whitespace followed by a
two-century 4-digit year parses to the empty title with that year, while
the bare year alone (no preceding whitespace, as `\s+` requires one) is
returned unchanged with no year. -/
theorem bare_year_query (w : List Char) (d1 d2 d3 d4 : Char)
    (hw : w ≠ []) (hws : ∀ c ∈ w, isSpace c = true)
    (hcent : (d1 = '1' ∧ d2 = '9') ∨ (d1 = '2' ∧ d2 = '0'))
    (h3 : isDigitC d3 = true) (h4 : isDigitC d4 = true) :
    parse_title_with_year ⟨w ++ [d1, d2, d3, d4]⟩ =
      (("" : String),
        some (1000 * digitVal d1 + 100 * digitVal d2 + 10 * digitVal d3 + digitVal d4)) ∧
    parse_title_with_year ⟨[d1, d2, d3, d4]⟩ = (⟨[d1, d2, d3, d4]⟩, none) := by
  have h1 : isDigitC d1 = true := by
    rcases hcent with ⟨rfl, _⟩ | ⟨rfl, _⟩ <;> decide
  have h2 : isDigitC d2 = true := by
    rcases hcent with ⟨_, rfl⟩ | ⟨_, rfl⟩ <;> decide
  have hrev : ((⟨w ++ [d1, d2, d3, d4]⟩ : String)).data.reverse.dropWhile isSpace
      = d4 :: d3 :: d2 :: d1 :: w.reverse := by
    show (w ++ [d1, d2, d3, d4]).reverse.dropWhile isSpace = _
    rw [List.reverse_append]
    rw [show ([d1, d2, d3, d4] : List Char).reverse = [d4, d3, d2, d1] from rfl]
    rw [show ([d4, d3, d2, d1] : List Char) ++ w.reverse
      = d4 :: d3 :: d2 :: d1 :: w.reverse from rfl]
    rw [List.dropWhile_cons, if_neg (by simp [isSpace_of_isDigitC d4 h4])]
  have hmov : parse_movie_with_year ⟨w ++ [d1, d2, d3, d4]⟩
      = (strip ⟨w ++ [d1, d2, d3, d4]⟩, none) := by
    unfold parse_movie_with_year
    rw [hrev, parenYearRev_cons_none d4 _ (beq_rparen_of_isDigitC d4 h4)]
  obtain ⟨r, rs, hwr⟩ : ∃ r rs, w.reverse = r :: rs := by
    cases hwrev : w.reverse with
    | nil => exact absurd (by simpa using congrArg List.reverse hwrev) hw
    | cons r rs => exact ⟨r, rs, rfl⟩
  have hrmem : r ∈ w := by
    have : r ∈ w.reverse := by rw [hwr]; simp
    exact List.mem_reverse.mp this
  have htrail : trailYearRev (d4 :: d3 :: d2 :: d1 :: w.reverse)
      = some (w.reverse,
          1000 * digitVal d1 + 100 * digitVal d2 + 10 * digitVal d3 + digitVal d4) := by
    have hr : isSpace r = true := hws r hrmem
    have hcond : ((d1 == '1' && d2 == '9' || d1 == '2' && d2 == '0') && isDigitC d3
        && isDigitC d4 && isSpace r) = true := by
      rcases hcent with ⟨rfl, rfl⟩ | ⟨rfl, rfl⟩ <;> simp [h3, h4, hr]
    rw [hwr]
    simp [trailYearRev, hcond]
  constructor
  · rw [parse_title_eq]
    rw [if_neg (by rw [hmov]; simp)]
    rw [hrev, htrail]
    show ((⟨stripL (w.reverse).reverse⟩ : String), some _) = _
    rw [List.reverse_reverse, stripL_all_space _ hws]
  · have hrev2 : ((⟨[d1, d2, d3, d4]⟩ : String)).data.reverse.dropWhile isSpace
        = [d4, d3, d2, d1] := by
      show ([d1, d2, d3, d4] : List Char).reverse.dropWhile isSpace = _
      rw [show ([d1, d2, d3, d4] : List Char).reverse = [d4, d3, d2, d1] from rfl]
      rw [List.dropWhile_cons, if_neg (by simp [isSpace_of_isDigitC d4 h4])]
    have hmov2 : parse_movie_with_year ⟨[d1, d2, d3, d4]⟩
        = (strip ⟨[d1, d2, d3, d4]⟩, none) := by
      unfold parse_movie_with_year
      rw [hrev2]
      rfl
    rw [parse_title_eq]
    rw [if_neg (by rw [hmov2]; simp)]
    rw [hrev2]
    show (strip ⟨[d1, d2, d3, d4]⟩, none) = _
    have hstr : stripL [d1, d2, d3, d4] = [d1, d2, d3, d4] := by
      simp only [stripL]
      rw [List.dropWhile_cons, if_neg (by simp [isSpace_of_isDigitC d1 h1])]
      rw [show ([d1, d2, d3, d4] : List Char).reverse = [d4, d3, d2, d1] from rfl]
      rw [List.dropWhile_cons, if_neg (by simp [isSpace_of_isDigitC d4 h4])]
      rfl
    simp [strip, hstr]

theorem bare_year_query_witness :
    parse_title_with_year (" 1999") = (("" : String), some 1999) ∧
    parse_title_with_year ("1999") = (("1999" : String), none) := by
  have h := bare_year_query ((" " : String).data) ('1') ('9') ('9') ('9')
    (by decide) (by decide) (Or.inl ⟨rfl, rfl⟩) (by decide) (by decide)
  exact ⟨h.1, h.2⟩

/-! ## Similarity-ratio lemmas -/

theorem lcp_le_left (a : List Char) : ∀ b : List Char, lcp a b ≤ a.length := by
  induction a with
  | nil => intro b; cases b <;> simp [lcp]
  | cons x xs ih =>
    intro b
    cases b with
    | nil => simp [lcp]
    | cons y ys =>
      by_cases h : (x == y) = true
      · simp only [lcp, h, if_true, List.length_cons]
        exact Nat.succ_le_succ (ih ys)
      · simp [lcp, h]

theorem lcp_le_right (a : List Char) : ∀ b : List Char, lcp a b ≤ b.length := by
  induction a with
  | nil => intro b; cases b <;> simp [lcp]
  | cons x xs ih =>
    intro b
    cases b with
    | nil => simp [lcp]
    | cons y ys =>
      by_cases h : (x == y) = true
      · simp only [lcp, h, if_true, List.length_cons]
        exact Nat.succ_le_succ (ih ys)
      · simp [lcp, h]

theorem lcp_take (k : Nat) : ∀ a b : List Char, k ≤ lcp a b → a.take k = b.take k := by
  induction k with
  | zero => intro a b _; simp
  | succ k ih =>
    intro a b h
    cases a with
    | nil => simp [lcp] at h
    | cons x xs =>
      cases b with
      | nil => simp [lcp] at h
      | cons y ys =>
        by_cases hxy : (x == y) = true
        · simp only [lcp, hxy, if_true] at h
          have hx : x = y := by simpa [beq_iff_eq] using hxy
          simp only [List.take_succ_cons, hx]
          rw [ih xs ys (Nat.le_of_succ_le_succ h)]
        · simp [lcp, hxy] at h

theorem bestScanJ_inv (a b : List Char) (i : Nat) (hi : i < a.length) :
    ∀ (js : List Nat), (∀ j ∈ js, j < b.length) → ∀ best : Nat × Nat × Nat,
      (best.2.2 ≤ lcp (a.drop best.1) (b.drop best.2.1) ∧
        best.1 + best.2.2 ≤ a.length ∧ best.2.1 + best.2.2 ≤ b.length) →
      ((bestScanJ a b i js best).2.2 ≤
          lcp (a.drop (bestScanJ a b i js best).1) (b.drop (bestScanJ a b i js best).2.1) ∧
        (bestScanJ a b i js best).1 + (bestScanJ a b i js best).2.2 ≤ a.length ∧
        (bestScanJ a b i js best).2.1 + (bestScanJ a b i js best).2.2 ≤ b.length) := by
  intro js
  induction js with
  | nil => intro _ best hb; simpa [bestScanJ] using hb
  | cons j js ih =>
    intro hjs best hb
    show ((bestScanJ a b i js _).2.2 ≤ _ ∧ _)
    apply ih (fun x hx => hjs x (by simp [hx]))
    by_cases hlt : best.2.2 < lcp (a.drop i) (b.drop j)
    · rw [if_pos hlt]
      refine ⟨le_refl _, ?_, ?_⟩
      · show i + lcp (a.drop i) (b.drop j) ≤ a.length
        have h1 := lcp_le_left (a.drop i) (b.drop j)
        rw [List.length_drop] at h1
        omega
      · show j + lcp (a.drop i) (b.drop j) ≤ b.length
        have h2 := lcp_le_right (a.drop i) (b.drop j)
        rw [List.length_drop] at h2
        have hj : j < b.length := hjs j (by simp)
        omega
    · rw [if_neg hlt]
      exact hb

theorem bestScanI_inv (a b : List Char) :
    ∀ (is : List Nat), (∀ i ∈ is, i < a.length) → ∀ best : Nat × Nat × Nat,
      (best.2.2 ≤ lcp (a.drop best.1) (b.drop best.2.1) ∧
        best.1 + best.2.2 ≤ a.length ∧ best.2.1 + best.2.2 ≤ b.length) →
      ((bestScanI a b is best).2.2 ≤
          lcp (a.drop (bestScanI a b is best).1) (b.drop (bestScanI a b is best).2.1) ∧
        (bestScanI a b is best).1 + (bestScanI a b is best).2.2 ≤ a.length ∧
        (bestScanI a b is best).2.1 + (bestScanI a b is best).2.2 ≤ b.length) := by
  intro is
  induction is with
  | nil => intro _ best hb; simpa [bestScanI] using hb
  | cons i is ih =>
    intro his best hb
    show ((bestScanI a b is _).2.2 ≤ _ ∧ _)
    apply ih (fun x hx => his x (by simp [hx]))
    exact bestScanJ_inv a b i (his i (by simp)) (List.range b.length)
      (fun j hj => List.mem_range.mp hj) best hb

theorem bestBlock_inv (a b : List Char) :
    (bestBlock a b).2.2 ≤ lcp (a.drop (bestBlock a b).1) (b.drop (bestBlock a b).2.1) ∧
    (bestBlock a b).1 + (bestBlock a b).2.2 ≤ a.length ∧
    (bestBlock a b).2.1 + (bestBlock a b).2.2 ≤ b.length := by
  exact bestScanI_inv a b (List.range a.length) (fun i hi => List.mem_range.mp hi)
    (0, 0, 0) (by simp)

theorem bestBlock_inv' (a b : List Char) (i j k : Nat) (h : bestBlock a b = (i, j, k)) :
    k ≤ lcp (a.drop i) (b.drop j) ∧ i + k ≤ a.length ∧ j + k ≤ b.length := by
  have hP := bestBlock_inv a b
  rw [h] at hP
  exact hP

theorem mtotalF_le (fuel : Nat) :
    ∀ a b : List Char, mtotalF fuel a b ≤ a.length ∧ mtotalF fuel a b ≤ b.length := by
  induction fuel with
  | zero => intro a b; simp [mtotalF]
  | succ fuel ih =>
    intro a b
    rcases hbb : bestBlock a b with ⟨i, j, k⟩
    obtain ⟨hlcp, hik, hjk⟩ := bestBlock_inv' a b i j k hbb
    simp only [mtotalF, hbb]
    by_cases hk : k = 0
    · simp [hk]
    · rw [if_neg hk]
      have hL1 : mtotalF fuel (a.take i) (b.take j) ≤ i :=
        le_trans (ih (a.take i) (b.take j)).1
          (by rw [List.length_take]; exact Nat.min_le_left _ _)
      have hL2 : mtotalF fuel (a.take i) (b.take j) ≤ j :=
        le_trans (ih (a.take i) (b.take j)).2
          (by rw [List.length_take]; exact Nat.min_le_left _ _)
      have hR1 : mtotalF fuel (a.drop (i + k)) (b.drop (j + k)) ≤ a.length - (i + k) := by
        have := (ih (a.drop (i + k)) (b.drop (j + k))).1
        rwa [List.length_drop] at this
      have hR2 : mtotalF fuel (a.drop (i + k)) (b.drop (j + k)) ≤ b.length - (j + k) := by
        have := (ih (a.drop (i + k)) (b.drop (j + k))).2
        rwa [List.length_drop] at this
      constructor <;> omega

theorem mtotalF_full (fuel : Nat) :
    ∀ a b : List Char, a.length + b.length ≤ fuel →
      mtotalF fuel a b = a.length → mtotalF fuel a b = b.length → a = b := by
  induction fuel with
  | zero =>
    intro a b hf h1 _
    simp only [mtotalF] at h1
    have ha : a = [] := List.eq_nil_of_length_eq_zero (by omega)
    have hb : b = [] := List.eq_nil_of_length_eq_zero (by omega)
    rw [ha, hb]
  | succ fuel ih =>
    intro a b hf h1 h2
    rcases hbb : bestBlock a b with ⟨i, j, k⟩
    obtain ⟨hlcp, hik, hjk⟩ := bestBlock_inv' a b i j k hbb
    simp only [mtotalF, hbb] at h1 h2
    by_cases hk : k = 0
    · rw [if_pos hk] at h1 h2
      have ha : a = [] := List.eq_nil_of_length_eq_zero (by omega)
      have hb : b = [] := List.eq_nil_of_length_eq_zero (by omega)
      rw [ha, hb]
    · rw [if_neg hk] at h1 h2
      have hL1 : mtotalF fuel (a.take i) (b.take j) ≤ i :=
        le_trans (mtotalF_le fuel (a.take i) (b.take j)).1
          (by rw [List.length_take]; exact Nat.min_le_left _ _)
      have hL2 : mtotalF fuel (a.take i) (b.take j) ≤ j :=
        le_trans (mtotalF_le fuel (a.take i) (b.take j)).2
          (by rw [List.length_take]; exact Nat.min_le_left _ _)
      have hR1 : mtotalF fuel (a.drop (i + k)) (b.drop (j + k)) ≤ a.length - (i + k) := by
        have := (mtotalF_le fuel (a.drop (i + k)) (b.drop (j + k))).1
        rwa [List.length_drop] at this
      have hR2 : mtotalF fuel (a.drop (i + k)) (b.drop (j + k)) ≤ b.length - (j + k) := by
        have := (mtotalF_le fuel (a.drop (i + k)) (b.drop (j + k))).2
        rwa [List.length_drop] at this
      have hLi : mtotalF fuel (a.take i) (b.take j) = i := by omega
      have hLj : mtotalF fuel (a.take i) (b.take j) = j := by omega
      have hij : i = j := by omega
      have htia : (a.take i).length = i := by
        rw [List.length_take]
        exact Nat.min_eq_left (by omega)
      have htjb : (b.take j).length = j := by
        rw [List.length_take]
        exact Nat.min_eq_left (by omega)
      have hEqL : a.take i = b.take j := by
        apply ih
        · rw [htia, htjb]
          omega
        · rw [htia]
          exact hLi
        · rw [htjb]
          exact hLj
      have hEqR : a.drop (i + k) = b.drop (j + k) := by
        apply ih
        · rw [List.length_drop, List.length_drop]
          omega
        · rw [List.length_drop]
          omega
        · rw [List.length_drop]
          omega
      have hEqM : (a.drop i).take k = (b.drop j).take k := lcp_take k _ _ hlcp
      have hA : a = a.take i ++ ((a.drop i).take k ++ (a.drop i).drop k) := by
        rw [List.take_append_drop k (a.drop i), List.take_append_drop i a]
      have hB : b = b.take j ++ ((b.drop j).take k ++ (b.drop j).drop k) := by
        rw [List.take_append_drop k (b.drop j), List.take_append_drop j b]
      rw [hA, hB, hEqL, hEqM, List.drop_drop, List.drop_drop, hEqR]

theorem mtotal_le_left (a b : List Char) : mtotal a b ≤ a.length :=
  (mtotalF_le _ a b).1

theorem mtotal_le_right (a b : List Char) : mtotal a b ≤ b.length :=
  (mtotalF_le _ a b).2

theorem mtotal_eq_of_full (a b : List Char) (h1 : mtotal a b = a.length)
    (h2 : mtotal a b = b.length) : a = b :=
  mtotalF_full _ a b le_rfl h1 h2

theorem ratioQ_nonneg (a b : List Char) : 0 ≤ ratioQ a b := by
  unfold ratioQ
  split
  · norm_num
  · rw [Rat.mkRat_eq_div]
    positivity

theorem ratioQ_le_one (a b : List Char) : ratioQ a b ≤ 1 := by
  unfold ratioQ
  split
  · norm_num
  · rename_i h
    rw [Rat.mkRat_eq_div]
    rw [div_le_one (by exact_mod_cast Nat.pos_of_ne_zero h)]
    have h1 := mtotal_le_left a b
    have h2 := mtotal_le_right a b
    exact_mod_cast (by omega : 2 * mtotal a b ≤ a.length + b.length)

theorem ratioQ_lt_one (a b : List Char) (hne : a ≠ b) : ratioQ a b < 1 := by
  unfold ratioQ
  split
  · rename_i h
    exact absurd (by
      have ha : a = [] := List.eq_nil_of_length_eq_zero (by omega)
      have hb : b = [] := List.eq_nil_of_length_eq_zero (by omega)
      rw [ha, hb]) hne
  · rename_i h
    rw [Rat.mkRat_eq_div]
    rw [div_lt_one (by exact_mod_cast Nat.pos_of_ne_zero h)]
    have h1 := mtotal_le_left a b
    have h2 := mtotal_le_right a b
    have hstrict : 2 * mtotal a b < a.length + b.length := by
      by_contra hge
      have hea : mtotal a b = a.length := by omega
      have heb : mtotal a b = b.length := by omega
      exact hne (mtotal_eq_of_full a b hea heb)
    exact_mod_cast hstrict

theorem ratioQ_right_nil (a : List Char) (h : a ≠ []) : ratioQ a [] = 0 := by
  unfold ratioQ
  rw [if_neg (by simp [h])]
  have hm : mtotal a [] = 0 := Nat.le_zero.mp (by simpa using mtotal_le_right a [])
  simp [hm]

/-! ## Matcher helper lemmas -/

theorem sc_annotate (c : Cand) (q : ℚ) : sc (annotate c q) = q := rfl

theorem annotate_id (c : Cand) (q : ℚ) : (annotate c q).id = c.id := rfl

theorem keepStep_exact (nameF : Cand → Option String) (title : String) (idx : Nat) (c : Cand)
    (h : lowerL ((nameF c).getD "").data = lowerL title.data) :
    keepStep nameF title idx c = some (annotate c 1) := by
  unfold keepStep
  rw [if_pos h]

theorem keepStep_elim (nameF : Cand → Option String) (title : String) (idx : Nat)
    (c x : Cand) (h : keepStep nameF title idx c = some x) :
    ∃ q : ℚ, x = annotate c q ∧ topThreshold ≤ q ∧ q ≤ 1 ∧
      (lowerL ((nameF c).getD "").data = lowerL title.data → q = 1) ∧
      (lowerL ((nameF c).getD "").data ≠ lowerL title.data →
        q = ratioQ (lowerL title.data) (lowerL ((nameF c).getD "").data)) := by
  unfold keepStep at h
  by_cases hex : lowerL ((nameF c).getD "").data = lowerL title.data
  · rw [if_pos hex] at h
    refine ⟨1, (Option.some.injEq _ _ ▸ h).symm, by decide, le_refl 1, fun _ => rfl,
      fun hne => absurd hex hne⟩
  · rw [if_neg hex] at h
    by_cases h1 : fuzzyThreshold ≤ ratioQ (lowerL title.data) (lowerL ((nameF c).getD "").data)
    · rw [if_pos h1] at h
      exact ⟨_, (Option.some.injEq _ _ ▸ h).symm,
        le_trans (by decide) h1, ratioQ_le_one _ _, fun hx => absurd hx hex, fun _ => rfl⟩
    · rw [if_neg h1] at h
      by_cases h2 : relaxedThreshold ≤ ratioQ (lowerL title.data) (lowerL ((nameF c).getD "").data)
      · rw [if_pos h2] at h
        exact ⟨_, (Option.some.injEq _ _ ▸ h).symm,
          le_trans (by decide) h2, ratioQ_le_one _ _, fun hx => absurd hx hex, fun _ => rfl⟩
      · rw [if_neg h2] at h
        by_cases h3 : idx = 0 ∧
            topThreshold ≤ ratioQ (lowerL title.data) (lowerL ((nameF c).getD "").data)
        · rw [if_pos h3] at h
          exact ⟨_, (Option.some.injEq _ _ ▸ h).symm,
            h3.2, ratioQ_le_one _ _, fun hx => absurd hx hex, fun _ => rfl⟩
        · rw [if_neg h3] at h
          exact absurd h (by simp)

theorem scoreFilter_cons (nameF : Cand → Option String) (title : String) (d : Cand)
    (ds : List Cand) (i : Nat) :
    scoreFilter nameF title (d :: ds) i =
      match keepStep nameF title i d with
      | some c' => c' :: scoreFilter nameF title ds (i + 1)
      | none => scoreFilter nameF title ds (i + 1) := rfl

theorem scoreFilter_append (nameF : Cand → Option String) (title : String) (l1 l2 : List Cand) :
    ∀ i : Nat, scoreFilter nameF title (l1 ++ l2) i
      = scoreFilter nameF title l1 i ++ scoreFilter nameF title l2 (i + l1.length) := by
  induction l1 with
  | nil => intro i; simp [scoreFilter]
  | cons d ds ih =>
    intro i
    rw [List.cons_append, scoreFilter_cons, scoreFilter_cons]
    cases hks : keepStep nameF title i d with
    | some c' =>
      simp only [ih (i + 1), List.cons_append, List.length_cons]
      rw [show i + 1 + ds.length = i + (ds.length + 1) by omega]
    | none =>
      simp only [ih (i + 1), List.length_cons]
      rw [show i + 1 + ds.length = i + (ds.length + 1) by omega]

theorem mem_scoreFilter (nameF : Cand → Option String) (title : String) :
    ∀ (l : List Cand) (i : Nat) (x : Cand), x ∈ scoreFilter nameF title l i →
      ∃ c, c ∈ l ∧ ∃ idx, keepStep nameF title idx c = some x := by
  intro l
  induction l with
  | nil => intro i x hx; simp [scoreFilter] at hx
  | cons d ds ih =>
    intro i x hx
    unfold scoreFilter at hx
    cases hks : keepStep nameF title i d with
    | some c' =>
      rw [hks] at hx
      rcases List.mem_cons.mp hx with rfl | hx'
      · exact ⟨d, by simp, i, hks⟩
      · obtain ⟨c, hc, idx, h⟩ := ih (i + 1) x hx'
        exact ⟨c, by simp [hc], idx, h⟩
    | none =>
      rw [hks] at hx
      obtain ⟨c, hc, idx, h⟩ := ih (i + 1) x hx
      exact ⟨c, by simp [hc], idx, h⟩

theorem mem_scoreFilter_of_exact (nameF : Cand → Option String) (title : String) :
    ∀ (l : List Cand) (i : Nat) (c : Cand), c ∈ l →
      lowerL ((nameF c).getD "").data = lowerL title.data →
      annotate c 1 ∈ scoreFilter nameF title l i := by
  intro l
  induction l with
  | nil => intro i c hc; simp at hc
  | cons d ds ih =>
    intro i c hc hex
    rcases List.mem_cons.mp hc with rfl | hc'
    · unfold scoreFilter
      rw [keepStep_exact nameF title i c hex]
      simp
    · unfold scoreFilter
      cases keepStep nameF title i d with
      | some c' => simpa using Or.inr (ih (i + 1) c hc' hex)
      | none => exact ih (i + 1) c hc' hex

theorem scoreFilter_pairwise_ids (nameF : Cand → Option String) (title : String) :
    ∀ (l : List Cand) (i : Nat), l.Pairwise (fun a b => a.id ≠ b.id) →
      (scoreFilter nameF title l i).Pairwise (fun a b => a.id ≠ b.id) := by
  intro l
  induction l with
  | nil => intro i _; simp [scoreFilter]
  | cons d ds ih =>
    intro i hpw
    rcases List.pairwise_cons.mp hpw with ⟨hd, htl⟩
    unfold scoreFilter
    cases hks : keepStep nameF title i d with
    | some c' =>
      rw [List.pairwise_cons]
      refine ⟨?_, ih (i + 1) htl⟩
      intro x hx
      obtain ⟨c, hc, idx, hkc⟩ := mem_scoreFilter nameF title ds (i + 1) x hx
      obtain ⟨q, rfl, _⟩ := keepStep_elim nameF title idx c x hkc
      obtain ⟨q', rfl, _⟩ := keepStep_elim nameF title i d c' hks
      exact hd c hc
    | none => exact ih (i + 1) htl

theorem dedupGo_cons (seen : List Int) (c : Cand) (cs : List Cand) :
    dedupGo seen (c :: cs) =
      match c.id with
      | none => .error ()
      | some i =>
        if i ∈ seen then dedupGo seen cs
        else (dedupGo (i :: seen) cs).map (fun u => c :: u) := rfl

theorem dedupGo_ok_of_ids : ∀ (l : List Cand) (seen : List Int),
    (∀ c ∈ l, c.id ≠ none) → ∃ u, dedupGo seen l = .ok u := by
  intro l
  induction l with
  | nil => intro seen _; exact ⟨[], rfl⟩
  | cons c cs ih =>
    intro seen hids
    cases hid : c.id with
    | none => exact absurd hid (hids c (by simp))
    | some i =>
      have hcons : dedupGo seen (c :: cs)
          = if i ∈ seen then dedupGo seen cs
            else (dedupGo (i :: seen) cs).map (fun u => c :: u) := by
        rw [dedupGo_cons, hid]
      by_cases hmem : i ∈ seen
      · obtain ⟨u, hu⟩ := ih seen (fun x hx => hids x (by simp [hx]))
        exact ⟨u, by rw [hcons, if_pos hmem]; exact hu⟩
      · obtain ⟨u, hu⟩ := ih (i :: seen) (fun x hx => hids x (by simp [hx]))
        exact ⟨c :: u, by rw [hcons, if_neg hmem, hu]; rfl⟩

theorem dedupGo_mem : ∀ (l : List Cand) (seen : List Int) (u : List Cand) (x : Cand),
    dedupGo seen l = .ok u → x ∈ u → x ∈ l := by
  intro l
  induction l with
  | nil => intro seen u x h hx; cases h; simp at hx
  | cons c cs ih =>
    intro seen u x h hx
    cases hid : c.id with
    | none =>
      rw [show dedupGo seen (c :: cs) = .error () from by rw [dedupGo_cons, hid]] at h
      cases h
    | some i =>
      rw [show dedupGo seen (c :: cs)
          = if i ∈ seen then dedupGo seen cs
            else (dedupGo (i :: seen) cs).map (fun u => c :: u) from by
          rw [dedupGo_cons, hid]] at h
      by_cases hmem : i ∈ seen
      · rw [if_pos hmem] at h
        exact List.mem_cons_of_mem c (ih seen u x h hx)
      · rw [if_neg hmem] at h
        cases hrec : dedupGo (i :: seen) cs with
        | error e => rw [hrec] at h; cases h
        | ok u' =>
          rw [hrec] at h
          have hu : u = c :: u' := by
            have h2 : Except.ok (ε := Unit) (c :: u') = .ok u := h
            exact ((Except.ok.injEq _ _).mp h2).symm
          subst hu
          rcases List.mem_cons.mp hx with rfl | hx'
          · exact List.mem_cons_self _ _
          · exact List.mem_cons_of_mem c (ih (i :: seen) u' x hrec hx')

theorem dedupGo_pairwise : ∀ (l : List Cand) (seen : List Int) (u : List Cand),
    dedupGo seen l = .ok u →
      (∀ x ∈ u, ∀ s ∈ seen, x.id ≠ some s) ∧ u.Pairwise (fun a b => a.id ≠ b.id) := by
  intro l
  induction l with
  | nil =>
    intro seen u h
    cases h
    simp
  | cons c cs ih =>
    intro seen u h
    cases hid : c.id with
    | none =>
      rw [show dedupGo seen (c :: cs) = .error () from by rw [dedupGo_cons, hid]] at h
      cases h
    | some i =>
      rw [show dedupGo seen (c :: cs)
          = if i ∈ seen then dedupGo seen cs
            else (dedupGo (i :: seen) cs).map (fun u => c :: u) from by
          rw [dedupGo_cons, hid]] at h
      by_cases hmem : i ∈ seen
      · rw [if_pos hmem] at h
        exact ih seen u h
      · rw [if_neg hmem] at h
        cases hrec : dedupGo (i :: seen) cs with
        | error e => rw [hrec] at h; cases h
        | ok u' =>
          rw [hrec] at h
          have hu : u = c :: u' := by
            have h2 : Except.ok (ε := Unit) (c :: u') = .ok u := h
            exact ((Except.ok.injEq _ _).mp h2).symm
          subst hu
          obtain ⟨hseen', hpw'⟩ := ih (i :: seen) u' hrec
          constructor
          · intro x hx s hs
            rcases List.mem_cons.mp hx with rfl | hx'
            · rw [hid]
              intro hcon
              exact hmem (by rw [(Option.some.injEq _ _).mp hcon]; exact hs)
            · exact hseen' x hx' s (by simp [hs])
          · rw [List.pairwise_cons]
            refine ⟨fun x hx => ?_, hpw'⟩
            rw [hid]
            intro hcon
            exact hseen' x hx i (by simp) hcon.symm

theorem dedupGo_eq_self : ∀ (l : List Cand) (seen : List Int) (u : List Cand),
    dedupGo seen l = .ok u → l.Pairwise (fun a b => a.id ≠ b.id) →
    (∀ x ∈ l, ∀ s ∈ seen, x.id ≠ some s) → u = l := by
  intro l
  induction l with
  | nil => intro seen u h _ _; cases h; rfl
  | cons c cs ih =>
    intro seen u h hpw hseen
    cases hid : c.id with
    | none =>
      rw [show dedupGo seen (c :: cs) = .error () from by rw [dedupGo_cons, hid]] at h
      cases h
    | some i =>
      rw [show dedupGo seen (c :: cs)
          = if i ∈ seen then dedupGo seen cs
            else (dedupGo (i :: seen) cs).map (fun u => c :: u) from by
          rw [dedupGo_cons, hid]] at h
      have hmem : i ∉ seen := by
        intro hs
        exact hseen c (by simp) i hs hid
      rw [if_neg hmem] at h
      cases hrec : dedupGo (i :: seen) cs with
      | error e => rw [hrec] at h; cases h
      | ok u' =>
        rw [hrec] at h
        have hu : u = c :: u' := by
          have h2 : Except.ok (ε := Unit) (c :: u') = .ok u := h
          exact ((Except.ok.injEq _ _).mp h2).symm
        subst hu
        rcases List.pairwise_cons.mp hpw with ⟨hd, htl⟩
        have hu' : u' = cs := by
          apply ih (i :: seen) u' hrec htl
          intro x hx s hs
          rcases List.mem_cons.mp hs with rfl | hs'
          · rw [← hid]
            intro hcon
            exact hd x hx hcon.symm
          · exact hseen x (by simp [hx]) s hs'
        rw [hu']

theorem dedupGo_keeps_first : ∀ (pre : List Cand) (x : Cand) (post : List Cand)
    (seen : List Int) (u : List Cand),
    dedupGo seen (pre ++ x :: post) = .ok u → (∀ p ∈ pre, p.id ≠ x.id) →
    (∀ s ∈ seen, x.id ≠ some s) → x ∈ u := by
  intro pre
  induction pre with
  | nil =>
    intro x post seen u h _ hseen
    rw [List.nil_append] at h
    cases hid : x.id with
    | none =>
      rw [show dedupGo seen (x :: post) = .error () from by rw [dedupGo_cons, hid]] at h
      cases h
    | some i =>
      rw [show dedupGo seen (x :: post)
          = if i ∈ seen then dedupGo seen post
            else (dedupGo (i :: seen) post).map (fun u => x :: u) from by
          rw [dedupGo_cons, hid]] at h
      have hmem : i ∉ seen := fun hs => hseen i hs hid
      rw [if_neg hmem] at h
      cases hrec : dedupGo (i :: seen) post with
      | error e => rw [hrec] at h; cases h
      | ok u' =>
        rw [hrec] at h
        have hu : u = x :: u' := by
          have h2 : Except.ok (ε := Unit) (x :: u') = .ok u := h
          exact ((Except.ok.injEq _ _).mp h2).symm
        rw [hu]
        simp
  | cons p pre' ih =>
    intro x post seen u h hpre hseen
    rw [List.cons_append] at h
    cases hid : p.id with
    | none =>
      rw [show dedupGo seen (p :: (pre' ++ x :: post)) = .error () from by
        rw [dedupGo_cons, hid]] at h
      cases h
    | some ip =>
      rw [show dedupGo seen (p :: (pre' ++ x :: post))
          = if ip ∈ seen then dedupGo seen (pre' ++ x :: post)
            else (dedupGo (ip :: seen) (pre' ++ x :: post)).map (fun u => p :: u) from by
          rw [dedupGo_cons, hid]] at h
      by_cases hmem : ip ∈ seen
      · rw [if_pos hmem] at h
        exact ih x post seen u h (fun q hq => hpre q (by simp [hq])) hseen
      · rw [if_neg hmem] at h
        cases hrec : dedupGo (ip :: seen) (pre' ++ x :: post) with
        | error e => rw [hrec] at h; cases h
        | ok u' =>
          rw [hrec] at h
          have hu : u = p :: u' := by
            have h2 : Except.ok (ε := Unit) (p :: u') = .ok u := h
            exact ((Except.ok.injEq _ _).mp h2).symm
          subst hu
          have hx : x ∈ u' := by
            apply ih x post (ip :: seen) u' hrec (fun q hq => hpre q (by simp [hq]))
            intro s hs
            rcases List.mem_cons.mp hs with rfl | hs'
            · rw [← hid]
              intro hcon
              exact hpre p (by simp) hcon.symm
            · exact hseen s hs'
          exact List.mem_cons_of_mem p hx

theorem insertD_perm (x : Cand) : ∀ l : List Cand, (insertD x l).Perm (x :: l) := by
  intro l
  induction l with
  | nil => exact List.Perm.refl _
  | cons y ys ih =>
    show (if sc x < sc y then y :: insertD x ys else x :: y :: ys).Perm _
    by_cases h : sc x < sc y
    · rw [if_pos h]
      exact ((ih.cons y).trans (List.Perm.swap x y ys))
    · rw [if_neg h]

theorem sortD_perm : ∀ l : List Cand, (sortD l).Perm l := by
  intro l
  induction l with
  | nil => exact List.Perm.refl _
  | cons x xs ih =>
    show (insertD x (sortD xs)).Perm _
    exact (insertD_perm x (sortD xs)).trans (ih.cons x)

theorem mem_insertD (x : Cand) (l : List Cand) (z : Cand) :
    z ∈ insertD x l ↔ z = x ∨ z ∈ l := by
  rw [(insertD_perm x l).mem_iff]
  simp

theorem insertD_pairwise (x : Cand) : ∀ l : List Cand,
    l.Pairwise (fun a b => sc b ≤ sc a) →
    (insertD x l).Pairwise (fun a b => sc b ≤ sc a) := by
  intro l
  induction l with
  | nil => intro _; simp [insertD]
  | cons y ys ih =>
    intro h
    rcases List.pairwise_cons.mp h with ⟨hy, htl⟩
    show (if sc x < sc y then y :: insertD x ys else x :: y :: ys).Pairwise _
    by_cases hlt : sc x < sc y
    · rw [if_pos hlt]
      rw [List.pairwise_cons]
      refine ⟨fun z hz => ?_, ih htl⟩
      rcases (mem_insertD x ys z).mp hz with rfl | hz'
      · exact le_of_lt hlt
      · exact hy z hz'
    · rw [if_neg hlt]
      rw [List.pairwise_cons]
      refine ⟨fun z hz => ?_, h⟩
      rcases List.mem_cons.mp hz with rfl | hz'
      · exact le_of_not_lt hlt
      · exact le_trans (hy z hz') (le_of_not_lt hlt)

theorem sortD_sorted : ∀ l : List Cand, (sortD l).Pairwise (fun a b => sc b ≤ sc a) := by
  intro l
  induction l with
  | nil => simp [sortD]
  | cons x xs ih => exact insertD_pairwise x (sortD xs) ih

theorem filter_insertD (x : Cand) (q : ℚ) : ∀ l : List Cand,
    (insertD x l).filter (fun c => decide (sc c = q))
      = if sc x = q then x :: l.filter (fun c => decide (sc c = q))
        else l.filter (fun c => decide (sc c = q)) := by
  intro l
  induction l with
  | nil =>
    show ([x] : List Cand).filter _ = _
    by_cases hx : sc x = q
    · simp [List.filter, hx]
    · simp [List.filter, hx]
  | cons y ys ih =>
    show (if sc x < sc y then y :: insertD x ys else x :: y :: ys).filter _ = _
    by_cases hlt : sc x < sc y
    · rw [if_pos hlt]
      by_cases hy : sc y = q
      · have hxq : ¬ (sc x = q) := by
          intro hx
          rw [hx, ← hy] at hlt
          exact lt_irrefl _ hlt
        simp [List.filter_cons, hy, ih, hxq]
      · by_cases hx : sc x = q <;> simp [List.filter_cons, ih, hx, hy]
    · rw [if_neg hlt]
      by_cases hx : sc x = q <;> simp [List.filter_cons, hx]

theorem filter_sortD (q : ℚ) : ∀ l : List Cand,
    (sortD l).filter (fun c => decide (sc c = q)) = l.filter (fun c => decide (sc c = q)) := by
  intro l
  induction l with
  | nil => rfl
  | cons x xs ih =>
    show (insertD x (sortD xs)).filter _ = _
    rw [filter_insertD x q (sortD xs), ih]
    by_cases hx : sc x = q <;> simp [List.filter_cons, hx]

theorem filter_take (p : Cand → Bool) : ∀ (l : List Cand) (n : Nat),
    ∃ k, (l.take n).filter p = (l.filter p).take k := by
  intro l
  induction l with
  | nil => intro n; exact ⟨0, by simp⟩
  | cons c cs ih =>
    intro n
    cases n with
    | zero => exact ⟨0, by simp⟩
    | succ n =>
      obtain ⟨k, hk⟩ := ih n
      by_cases hp : p c = true
      · exact ⟨k + 1, by simp [List.take_succ_cons, List.filter_cons, hp, hk]⟩
      · exact ⟨k, by simp [List.take_succ_cons, List.filter_cons, hp, hk]⟩

theorem firstMax_cons (x : Cand) (xs : List Cand) :
    firstMax (x :: xs) = match firstMax xs with
      | none => some x
      | some m => if sc x < sc m then some m else some x := rfl

theorem firstMax_mem : ∀ (l : List Cand) (m : Cand), firstMax l = some m → m ∈ l := by
  intro l
  induction l with
  | nil => intro m h; cases h
  | cons x xs ih =>
    intro m h
    cases hfm : firstMax xs with
    | none =>
      rw [show firstMax (x :: xs) = some x from by rw [firstMax_cons, hfm]] at h
      cases h
      simp
    | some m' =>
      rw [show firstMax (x :: xs) = if sc x < sc m' then some m' else some x from by
        rw [firstMax_cons, hfm]] at h
      by_cases hlt : sc x < sc m'
      · rw [if_pos hlt] at h
        cases h
        exact List.mem_cons_of_mem x (ih _ hfm)
      · rw [if_neg hlt] at h
        cases h
        simp

theorem insertD_head (x : Cand) (l : List Cand) :
    (insertD x l).head? = some (match l.head? with
      | none => x
      | some y => if sc x < sc y then y else x) := by
  cases l with
  | nil => rfl
  | cons y ys =>
    show (if sc x < sc y then y :: insertD x ys else x :: y :: ys).head? = _
    by_cases h : sc x < sc y
    · rw [if_pos h]
      simp [h]
    · rw [if_neg h]
      simp [h]

theorem sortD_head : ∀ l : List Cand, (sortD l).head? = firstMax l := by
  intro l
  induction l with
  | nil => rfl
  | cons x xs ih =>
    show (insertD x (sortD xs)).head? = _
    rw [insertD_head, ih, firstMax_cons]
    cases hfm : firstMax xs with
    | none => rfl
    | some m =>
      show some (if sc x < sc m then m else x) = if sc x < sc m then some m else some x
      by_cases h : sc x < sc m <;> simp [h]

theorem firstMax_of_split (x : Cand) : ∀ (P Q : List Cand),
    (∀ y ∈ P, sc y < sc x) → (∀ y ∈ Q, sc y ≤ sc x) →
    firstMax (P ++ x :: Q) = some x := by
  intro P
  induction P with
  | nil =>
    intro Q _ hQ
    rw [List.nil_append, firstMax_cons]
    cases hfm : firstMax Q with
    | none => rfl
    | some m =>
      have hm : sc m ≤ sc x := hQ m (firstMax_mem Q m hfm)
      show (if sc x < sc m then some m else some x) = some x
      rw [if_neg (not_lt.mpr hm)]
  | cons p P' ih =>
    intro Q hP hQ
    show firstMax (p :: (P' ++ x :: Q)) = some x
    rw [firstMax_cons, ih Q (fun y hy => hP y (by simp [hy])) hQ]
    show (if sc p < sc x then some x else some p) = some x
    rw [if_pos (hP p (by simp))]

theorem head_take_five (l : List Cand) : (l.take 5).head? = l.head? := by
  cases l <;> rfl

theorem except_map_ok (o : Except Unit (List Cand)) (f : List Cand → List Cand)
    (r : List Cand) (h : o.map f = .ok r) : ∃ u, o = .ok u ∧ r = f u := by
  cases o with
  | error e => cases h
  | ok u =>
    refine ⟨u, rfl, ?_⟩
    have h2 : Except.ok (ε := Unit) (f u) = .ok r := h
    exact ((Except.ok.injEq _ _).mp h2).symm

theorem rankCore_ok_elim (nameF : Cand → Option String) (title : String) (cs res : List Cand)
    (h : rankCore nameF title cs = .ok res) :
    ∃ u, dedupGo [] (scoreFilter nameF title cs 0) = .ok u ∧ res = (sortD u).take 5 := by
  unfold rankCore dedupCands at h
  exact except_map_ok _ _ _ h

theorem mem_rankCore (nameF : Cand → Option String) (title : String) (cs res : List Cand)
    (x : Cand) (h : rankCore nameF title cs = .ok res) (hx : x ∈ res) :
    ∃ c, c ∈ cs ∧ ∃ idx, keepStep nameF title idx c = some x := by
  obtain ⟨u, hu, rfl⟩ := rankCore_ok_elim nameF title cs res h
  have hx2 : x ∈ sortD u := List.take_subset 5 _ hx
  have hx3 : x ∈ u := (sortD_perm u).mem_iff.mp hx2
  have hx4 : x ∈ scoreFilter nameF title cs 0 := dedupGo_mem _ [] u x hu hx3
  exact mem_scoreFilter nameF title cs 0 x hx4

/-! ## Matcher claims -/

/-- Claim C1 (amended): the two title/year extractors, the specificity
and intent classifiers, and the candidate scoring are total — every
`res.get(...)` lookup has a default and cannot raise — but the
identifier lookup `m["id"]` used for deduplication is a bare subscript
whose error branch IS reachable: it raises exactly when a kept candidate
lacks the identifier field.  When every candidate carries an identifier,
the whole filtering/ranking core returns a value without raising. -/
theorem rank_total_of_ids (nameF : Cand → Option String) (title : String) (cs : List Cand)
    (h : ∀ c ∈ cs, c.id ≠ none) : ∃ res, rankCore nameF title cs = .ok res := by
  have hm : ∀ x ∈ scoreFilter nameF title cs 0, x.id ≠ none := by
    intro x hx
    obtain ⟨c, hc, idx, hks⟩ := mem_scoreFilter nameF title cs 0 x hx
    obtain ⟨q, rfl, _⟩ := keepStep_elim nameF title idx c x hks
    rw [annotate_id]
    exact h c hc
  obtain ⟨u, hu⟩ := dedupGo_ok_of_ids (scoreFilter nameF title cs 0) [] hm
  refine ⟨(sortD u).take 5, ?_⟩
  unfold rankCore dedupCands
  rw [hu]
  rfl

/-- Claim C1 counterexample: a candidate that is kept (here an exact
title match) but has no identifier field makes the deduplication
subscript raise: the matcher core returns an error, not a value. -/
theorem rank_missing_id_cex :
    search_movie ("a") [{ title := some "a", name := none, id := none, score := none }]
      = .error () := by rfl

theorem rank_total_of_ids_witness :
    (∀ c ∈ [({ title := some "a", name := none, id := some 3, score := none } : Cand)],
      c.id ≠ none) ∧
    ∃ res, rankCore movieName ("a")
      [{ title := some "a", name := none, id := some 3, score := none }] = .ok res :=
  ⟨by decide, rank_total_of_ids movieName ("a")
    [{ title := some "a", name := none, id := some 3, score := none }] (by decide)⟩

/-- Claim C9 (amended): each candidate the matcher keeps is augmented
with a score in `[0,1]` stored in its `_score` field — but the score is
NOT discarded after ranking: every candidate record returned to the
caller still carries the `_score` annotation. -/
theorem rank_score_carried (nameF : Cand → Option String) (title : String)
    (cs res : List Cand) (h : rankCore nameF title cs = .ok res) :
    ∀ x ∈ res, ∃ q : ℚ, x.score = some q ∧ 0 ≤ q ∧ q ≤ 1 := by
  intro x hx
  obtain ⟨c, _, idx, hks⟩ := mem_rankCore nameF title cs res x h hx
  obtain ⟨q, rfl, hq1, hq2, _⟩ := keepStep_elim nameF title idx c x hks
  exact ⟨q, rfl, le_trans (by decide) hq1, hq2⟩

/-- Claim C9 counterexample: the returned record carries the `_score`
field (value 1.0 here), contradicting "the candidate records returned to
the caller do not carry the score field". -/
theorem score_not_discarded_cex :
    search_movie ("a") [{ title := some "a", name := none, id := some 1, score := none }]
      = .ok [{ title := some "a", name := none, id := some 1, score := some 1 }] ∧
    ({ title := some "a", name := none, id := some 1, score := some 1 } : Cand).score
      ≠ none :=
  ⟨by rfl, by decide⟩

theorem rank_score_carried_witness :
    search_movie ("a") [{ title := some "a", name := none, id := some 1, score := none }]
      = .ok [{ title := some "a", name := none, id := some 1, score := some 1 }] ∧
    ∀ x ∈ [({ title := some "a", name := none, id := some 1, score := some 1 } : Cand)],
      ∃ q : ℚ, x.score = some q ∧ 0 ≤ q ∧ q ≤ 1 :=
  ⟨by rfl, rank_score_carried movieName ("a")
    [{ title := some "a", name := none, id := some 1, score := none }]
    [{ title := some "a", name := none, id := some 1, score := some 1 }] (by rfl)⟩

theorem data_ne_nil (s : String) (h : s ≠ "") : s.data ≠ [] := by
  intro hd
  apply h
  cases s with
  | mk l =>
    have hl : l = [] := hd
    rw [hl]

/-- Claim C7 (amended): a candidate record missing its display-name
field is treated as having the empty-string name and scored normally;
for every NONEMPTY query title the ratio against the empty name is `0`,
below every threshold, so the candidate never reaches the returned
result.  (For the empty query title the empty name is an exact match and
IS returned, so the claim's "every query title" fails.) -/
theorem missing_name_filtered (title : String) (cs1 cs2 res1 res2 : List Cand)
    (hne : title ≠ "") (h1 : search_movie title cs1 = .ok res1)
    (h2 : search_tv title cs2 = .ok res2) :
    (∀ x ∈ res1, x.title ≠ none) ∧ (∀ x ∈ res2, x.name ≠ none) := by
  have htl : lowerL title.data ≠ [] := by
    intro hl
    exact data_ne_nil title hne (by simpa [lowerL] using hl)
  constructor
  · intro x hx
    obtain ⟨c, _, idx, hks⟩ := mem_rankCore movieName title cs1 res1 x h1 hx
    obtain ⟨q, rfl, hq1, _, _, hnon⟩ := keepStep_elim movieName title idx c x hks
    rw [show (annotate c q).title = c.title from rfl]
    intro hnone
    have hname : (movieName c).getD "" = "" := by
      simp [movieName, hnone]
    rw [hname] at hnon
    have hq0 : q = 0 := by
      rw [hnon (fun hx => htl hx.symm)]
      exact ratioQ_right_nil _ htl
    rw [hq0] at hq1
    exact absurd hq1 (by decide)
  · intro x hx
    obtain ⟨c, _, idx, hks⟩ := mem_rankCore tvName title cs2 res2 x h2 hx
    obtain ⟨q, rfl, hq1, _, _, hnon⟩ := keepStep_elim tvName title idx c x hks
    rw [show (annotate c q).name = c.name from rfl]
    intro hnone
    have hname : (tvName c).getD "" = "" := by
      simp [tvName, hnone]
    rw [hname] at hnon
    have hq0 : q = 0 := by
      rw [hnon (fun hx => htl hx.symm)]
      exact ratioQ_right_nil _ htl
    rw [hq0] at hq1
    exact absurd hq1 (by decide)

/-- Claim C7 counterexample: with the EMPTY query title, a candidate
missing its display name is an exact match (empty equals empty), scores
1.0 and is returned — it is not filtered out. -/
theorem missing_name_kept_cex :
    search_movie ("") [{ title := none, name := none, id := some 7, score := none }]
      = .ok [{ title := none, name := none, id := some 7, score := some 1 }] := by rfl

theorem missing_name_filtered_witness :
    (("b" : String) ≠ "") ∧
    ((∀ x ∈ ([] : List Cand), x.title ≠ none) ∧ (∀ x ∈ ([] : List Cand), x.name ≠ none)) :=
  ⟨by decide, missing_name_filtered ("b")
    [{ title := none, name := none, id := some 1, score := none }] [] [] []
    (by decide) (by rfl) (by rfl)⟩

/-- Claim C2 (amended): every candidate whose display name equals the
query title case-insensitively receives score 1.0 and is always kept
into the match set; the FIRST such candidate in provider order — when no
earlier kept candidate shadows its identifier (here: identifiers are
pairwise distinct) — appears first in the returned ranking, regardless
of its position.  A second exact match appears after the first, not
first, so the claim's "any candidate ... appears first" fails. -/
theorem exact_match_first (nameF : Cand → Option String) (title : String)
    (pre post : List Cand) (c : Cand) (res : List Cand)
    (h : rankCore nameF title (pre ++ c :: post) = .ok res)
    (hids : (pre ++ c :: post).Pairwise (fun a b => a.id ≠ b.id))
    (hex : lowerL ((nameF c).getD "").data = lowerL title.data)
    (hpre : ∀ c' ∈ pre, lowerL ((nameF c').getD "").data ≠ lowerL title.data) :
    (∀ c' ∈ pre ++ c :: post,
      lowerL ((nameF c').getD "").data = lowerL title.data →
      annotate c' 1 ∈ scoreFilter nameF title (pre ++ c :: post) 0) ∧
    res.head? = some (annotate c 1) := by
  refine ⟨fun c' hc' hex' => mem_scoreFilter_of_exact nameF title _ 0 c' hc' hex', ?_⟩
  obtain ⟨u, hu, rfl⟩ := rankCore_ok_elim nameF title _ res h
  have hpw := scoreFilter_pairwise_ids nameF title (pre ++ c :: post) 0 hids
  have hueq : u = scoreFilter nameF title (pre ++ c :: post) 0 :=
    dedupGo_eq_self _ [] u hu hpw (fun x _ s hs => absurd hs (List.not_mem_nil s))
  subst hueq
  rw [head_take_five, sortD_head]
  rw [scoreFilter_append nameF title pre (c :: post) 0]
  have hsf : scoreFilter nameF title (c :: post) (0 + pre.length)
      = annotate c 1 :: scoreFilter nameF title post (0 + pre.length + 1) := by
    rw [scoreFilter_cons, keepStep_exact nameF title _ c hex]
  rw [hsf]
  apply firstMax_of_split
  · intro y hy
    obtain ⟨c', hc', idx, hks⟩ := mem_scoreFilter nameF title pre 0 y hy
    obtain ⟨q, rfl, _, _, _, hnon⟩ := keepStep_elim nameF title idx c' y hks
    rw [sc_annotate, sc_annotate]
    rw [hnon (hpre c' hc')]
    exact ratioQ_lt_one _ _ (fun he => hpre c' hc' he.symm)
  · intro y hy
    obtain ⟨c', hc', idx, hks⟩ := mem_scoreFilter nameF title post _ y hy
    obtain ⟨q, rfl, _, hq2, _⟩ := keepStep_elim nameF title idx c' y hks
    rw [sc_annotate, sc_annotate]
    exact hq2

/-- Claim C2 counterexample: with two exact matches, the second one (id
2) equals the query title case-insensitively but appears at position 1
of the returned ranking, not first. -/
theorem exact_match_second_cex :
    search_movie ("a")
      [{ title := some "A", name := none, id := some 1, score := none },
       { title := some "a", name := none, id := some 2, score := none }] =
      .ok [{ title := some "A", name := none, id := some 1, score := some 1 },
           { title := some "a", name := none, id := some 2, score := some 1 }] ∧
    lowerL ((movieName
        ⟨some ("a" : String), none, some 2, none⟩).getD "").data
      = lowerL ("a" : String).data ∧
    ([{ title := some "A", name := none, id := some 1, score := some 1 },
      { title := some "a", name := none, id := some 2, score := some 1 }] : List Cand).head?
      ≠ some { title := some "a", name := none, id := some 2, score := some 1 } :=
  ⟨by rfl, by rfl, by decide⟩

theorem exact_match_first_witness :
    (∀ c' ∈ ([] : List Cand) ++
        ({ title := some "b", name := none, id := some 1, score := none } : Cand) :: [],
      lowerL ((movieName c').getD "").data = lowerL ("b" : String).data →
      annotate c' 1 ∈ scoreFilter movieName ("b")
        (([] : List Cand) ++
          { title := some "b", name := none, id := some 1, score := none } :: []) 0) ∧
    ([{ title := some "b", name := none, id := some 1, score := some 1 }] : List Cand).head?
      = some (annotate { title := some "b", name := none, id := some 1, score := none } 1) :=
  exact_match_first movieName ("b") [] []
    { title := some "b", name := none, id := some 1, score := none }
    [{ title := some "b", name := none, id := some 1, score := some 1 }]
    (by rfl) (by simp) (by rfl) (by simp)

/-- Claim C8 (confirmed): whenever the matcher returns a ranking, it has
length at most 5, its identifiers are pairwise distinct (deduplication
keeps the first occurrence in provider order of each identifier), it is
sorted by score descending, and it is stable: for every score value the
survivors with that score appear as an initial segment, in provider
order, of the deduplicated match set's entries with that score. -/
theorem rank_result_shape (nameF : Cand → Option String) (title : String)
    (cs res : List Cand) (h : rankCore nameF title cs = .ok res) :
    res.length ≤ 5 ∧
    res.Pairwise (fun a b => a.id ≠ b.id) ∧
    res.Pairwise (fun a b => sc b ≤ sc a) ∧
    ∃ u, dedupCands (scoreFilter nameF title cs 0) = .ok u ∧
      (∀ pre x post, scoreFilter nameF title cs 0 = pre ++ x :: post →
        (∀ p ∈ pre, p.id ≠ x.id) → x ∈ u) ∧
      ∀ q : ℚ, ∃ k, res.filter (fun c => decide (sc c = q)) =
        (u.filter (fun c => decide (sc c = q))).take k := by
  obtain ⟨u, hu, rfl⟩ := rankCore_ok_elim nameF title cs res h
  have hpair := (dedupGo_pairwise _ [] u hu).2
  refine ⟨List.length_take_le 5 _, ?_, ?_, u, hu, ?_, ?_⟩
  · have hs : (sortD u).Pairwise (fun a b => a.id ≠ b.id) :=
      ((sortD_perm u).pairwise_iff (fun hab => Ne.symm hab)).mpr hpair
    exact hs.sublist (List.take_sublist 5 _)
  · exact (sortD_sorted u).sublist (List.take_sublist 5 _)
  · intro pre x post hsp hfresh
    apply dedupGo_keeps_first pre x post [] u
    · rw [← hsp]
      exact hu
    · exact hfresh
    · intro s hs
      exact absurd hs (List.not_mem_nil s)
  · intro q
    obtain ⟨k, hk⟩ := filter_take (fun c => decide (sc c = q)) (sortD u) 5
    exact ⟨k, by rw [hk, filter_sortD]⟩

theorem rank_result_shape_witness :
    ([({ title := some "a", name := none, id := some 1, score := some 1 } : Cand)]).length ≤ 5 ∧
    ([({ title := some "a", name := none, id := some 1, score := some 1 } : Cand)]).Pairwise
      (fun a b => a.id ≠ b.id) ∧
    ([({ title := some "a", name := none, id := some 1, score := some 1 } : Cand)]).Pairwise
      (fun a b => sc b ≤ sc a) ∧
    ∃ u, dedupCands (scoreFilter movieName ("a")
        [{ title := some "a", name := none, id := some 1, score := none }] 0) = .ok u ∧
      (∀ pre x post, scoreFilter movieName ("a")
          [{ title := some "a", name := none, id := some 1, score := none }] 0
          = pre ++ x :: post → (∀ p ∈ pre, p.id ≠ x.id) → x ∈ u) ∧
      ∀ q : ℚ, ∃ k,
        ([({ title := some "a", name := none, id := some 1, score := some 1 } : Cand)]).filter
            (fun c => decide (sc c = q)) =
          (u.filter (fun c => decide (sc c = q))).take k :=
  rank_result_shape movieName ("a")
    [{ title := some "a", name := none, id := some 1, score := none }]
    [{ title := some "a", name := none, id := some 1, score := some 1 }] (by rfl)
